import Mathlib

/-!
Shallow embedding of the font-management tool `src/main.py` of the
`Anxcye/fonts` repository, together with theorems settling the frozen
claims about it.

Modelling conventions:
- A manifest record (a JSON object) becomes the structure `Fonts.FontRecord`;
  an absent `files` key is modelled as the empty list, since every use site
  guards with `"files" in font and font["files"]` (or only ever extends by
  the list), so an absent key and an empty list are indistinguishable.
- The filesystem is a map from paths (relative to `FONTS_DIR`, which is `"."`)
  to file contents, a file being a list of bytes; `none` means the path does
  not exist.  `os.path.join(FONTS_DIR, p)` with `FONTS_DIR = "."` resolves to
  the same file as the relative path `p`, so the model keys directly on `p`.
- Machine integers do not occur: Python integers are unbounded, so `Nat`/`Int`
  are exact.  Python floor division `//` on `Int` is `Int.fdiv`.
-/

namespace Fonts

/-- A manifest font record: `id`, `name`, `files`, `preview`, `size`
as in `main.py` (fields other than `files` may be absent, hence `Option`). -/
structure FontRecord where
  id : Option String
  name : Option String
  files : List String
  preview : Option String
  size : Option Nat
deriving DecidableEq, Repr

/-- The filesystem: paths relative to `FONTS_DIR` mapped to byte contents;
`none` means the path does not exist. -/
def FS : Type := String → Option (List Nat)

/-- The byte size a `stat`/`getsize` call reports for an existing file. -/
def fileSize (content : List Nat) : Nat := content.length

/-- Lines 40-46 of `main.py` (`get_manifest_font_files`): collect every path
in any record's `files` list, in manifest order, duplicates kept. -/
def get_manifest_font_files (manifest : List FontRecord) : List String :=
  manifest.foldl (fun acc font => acc ++ font.files) []

/-- Lines 48-55 of `main.py` (`find_orphaned_font_files`): the scanned disk
files (in scan order) whose relative path is not an exact string member of
the manifest's file list. -/
def find_orphaned_font_files (manifest : List FontRecord) (all_files : List String) :
    List String :=
  all_files.filter (fun f => !decide (f ∈ get_manifest_font_files manifest))

theorem manifest_files_foldl_mem (manifest : List FontRecord) (acc : List String)
    (p : String) :
    p ∈ manifest.foldl (fun acc font => acc ++ font.files) acc ↔
      p ∈ acc ∨ ∃ r ∈ manifest, p ∈ r.files := by
  induction manifest generalizing acc with
  | nil => simp
  | cons r rest ih =>
    simp only [List.foldl_cons, ih, List.mem_append, List.mem_cons]
    constructor
    · rintro (⟨h | h⟩ | ⟨s, hs, hps⟩)
      · exact Or.inl h
      · exact Or.inr ⟨r, Or.inl rfl, h⟩
      · exact Or.inr ⟨s, Or.inr hs, hps⟩
    · rintro (h | ⟨s, rfl | hs, hps⟩)
      · exact Or.inl (Or.inl h)
      · exact Or.inl (Or.inr hps)
      · exact Or.inr ⟨s, hs, hps⟩

theorem mem_get_manifest_font_files (manifest : List FontRecord) (p : String) :
    p ∈ get_manifest_font_files manifest ↔ ∃ r ∈ manifest, p ∈ r.files := by
  simp [get_manifest_font_files, manifest_files_foldl_mem]

/-- C1: for every manifest and every list of scanned disk files, the orphan
computation returns exactly the scanned files whose relative path is not an
exact string match of any path in any record's `files` list, and the result
is a sublist of the scan (scan order preserved). -/
theorem find_orphaned_font_files_spec (manifest : List FontRecord)
    (all_files : List String) :
    (∀ p, p ∈ find_orphaned_font_files manifest all_files ↔
        p ∈ all_files ∧ ¬ ∃ r ∈ manifest, p ∈ r.files) ∧
    List.Sublist (find_orphaned_font_files manifest all_files) all_files := by
  constructor
  · intro p
    simp [find_orphaned_font_files, List.mem_filter, mem_get_manifest_font_files]
  · exact List.filter_sublist _

/-- Python `set.add`: append the element only when it is not yet present. -/
def addSet (s : List String) (x : String) : List String :=
  if x ∈ s then s else s ++ [x]

/-- Loop of lines 226-231 of `main.py` (`verify_font_files`): walk the
records carrying the `seen_ids` and `duplicate_ids` sets; a record with an
`id` already seen adds it to the duplicate set, every `id` is added to the
seen set, records without an `id` only print a warning. -/
def duplicateIdsGo : List FontRecord → List String → List String → List String
  | [], _, dup => dup
  | font :: rest, seen, dup =>
    match font.id with
    | some i => duplicateIdsGo rest (addSet seen i) (if i ∈ seen then addSet dup i else dup)
    | none => duplicateIdsGo rest seen dup

/-- The duplicate-id set `verify_font_files` reports, starting from empty
`seen_ids` and `duplicate_ids` sets. -/
def duplicate_ids (manifest : List FontRecord) : List String :=
  duplicateIdsGo manifest [] []

/-- The number of records of the manifest carrying the id `x`. -/
def idCount (manifest : List FontRecord) (x : String) : Nat :=
  manifest.countP (fun r => decide (r.id = some x))

theorem addSet_mem (s : List String) (x y : String) :
    y ∈ addSet s x ↔ y ∈ s ∨ y = x := by
  by_cases h : x ∈ s
  · simp only [addSet, if_pos h]
    constructor
    · exact Or.inl
    · rintro (hy | rfl)
      · exact hy
      · exact h
  · simp [addSet, if_neg h]

theorem addSet_nodup (s : List String) (x : String) (h : s.Nodup) :
    (addSet s x).Nodup := by
  by_cases hx : x ∈ s
  · simpa [addSet, if_pos hx] using h
  · rw [addSet, if_neg hx]
    refine List.Nodup.append h (List.nodup_singleton x) ?_
    intro a ha hax
    exact hx ((List.mem_singleton.mp hax) ▸ ha)

theorem idCount_cons (font : FontRecord) (rest : List FontRecord) (x : String) :
    idCount (font :: rest) x =
      idCount rest x + (if font.id = some x then 1 else 0) := by
  by_cases h : font.id = some x
  · simp [idCount, List.countP_cons, h]
  · simp [idCount, List.countP_cons, h]

theorem duplicateIdsGo_mem (manifest : List FontRecord) (seen dup : List String)
    (x : String) :
    x ∈ duplicateIdsGo manifest seen dup ↔
      x ∈ dup ∨ (x ∈ seen ∧ 1 ≤ idCount manifest x) ∨ 2 ≤ idCount manifest x := by
  induction manifest generalizing seen dup with
  | nil => simp [duplicateIdsGo, idCount]
  | cons font rest ih =>
    match hid : font.id with
    | none =>
      have hcount : idCount (font :: rest) x = idCount rest x := by
        rw [idCount_cons, hid]; simp
      simp only [duplicateIdsGo, hid, ih, hcount]
    | some i =>
      by_cases hix : i = x
      · subst hix
        have hcount : idCount (font :: rest) i = idCount rest i + 1 := by
          rw [idCount_cons, hid]; simp
        simp only [duplicateIdsGo, hid, ih, hcount, addSet_mem]
        by_cases hseen : i ∈ seen <;> by_cases hdup : i ∈ dup <;>
          simp [hseen, hdup, addSet_mem] <;> omega
      · have hcount : idCount (font :: rest) x = idCount rest x := by
          rw [idCount_cons, hid]; simp [hix]
        have hxi : ¬ x = i := fun h => hix h.symm
        simp only [duplicateIdsGo, hid, ih, hcount, addSet_mem]
        by_cases hseen : i ∈ seen <;>
          simp [hseen, addSet_mem, hxi]

theorem duplicateIdsGo_nodup (manifest : List FontRecord) (seen dup : List String)
    (h : dup.Nodup) : (duplicateIdsGo manifest seen dup).Nodup := by
  induction manifest generalizing seen dup with
  | nil => simpa [duplicateIdsGo] using h
  | cons font rest ih =>
    match hid : font.id with
    | none => simpa [duplicateIdsGo, hid] using ih seen dup h
    | some i =>
      simp only [duplicateIdsGo, hid]
      by_cases hseen : i ∈ seen
      · simpa [hseen] using ih (addSet seen i) (addSet dup i) (addSet_nodup dup i h)
      · simpa [hseen] using ih (addSet seen i) dup h

/-- C5: duplicate-id detection reports exactly the ids carried by more than
one record, each reported once (the reported list has no duplicates). -/
theorem duplicate_ids_spec (manifest : List FontRecord) :
    (∀ x, x ∈ duplicate_ids manifest ↔ 2 ≤ idCount manifest x) ∧
    (duplicate_ids manifest).Nodup := by
  constructor
  · intro x
    simp [duplicate_ids, duplicateIdsGo_mem]
  · exact duplicateIdsGo_nodup manifest [] [] List.nodup_nil

/-- Effect of `os.remove(p)` (and `Path.unlink`) on the filesystem model;
removal of an absent path leaves the map unchanged, matching the per-file
try/except that keeps going after a failed removal. -/
def removeFile (fs : FS) (p : String) : FS :=
  fun q => if q = p then none else fs q

/-- Effect of `Path.rename(src, dst)` on the filesystem model: `dst` now
holds what `src` held, `src` is gone (an existing `dst` is overwritten). -/
def renameFile (fs : FS) (src dst : String) : FS :=
  fun q => if q = dst then fs src else if q = src then none else fs q

/-- Python `str.isspace`, the exact set of code points Python `str.strip()`
removes with no argument: the ASCII whitespace `\t \n \x0b \x0c \r`, the
file/group/record/unit separators `\x1c`-`\x1f`, space, next line U+0085,
no-break space U+00A0, ogham space U+1680, the U+2000-U+200A spaces, line
and paragraph separators U+2028 and U+2029, U+202F, U+205F and ideographic
space U+3000. -/
def pyIsSpace (c : Char) : Bool :=
  decide (c.toNat ∈ [0x09, 0x0a, 0x0b, 0x0c, 0x0d, 0x1c, 0x1d, 0x1e, 0x1f, 0x20,
    0x85, 0xa0, 0x1680, 0x2000, 0x2001, 0x2002, 0x2003, 0x2004, 0x2005, 0x2006,
    0x2007, 0x2008, 0x2009, 0x200a, 0x2028, 0x2029, 0x202f, 0x205f, 0x3000])

/-- Python `str.strip()` on the character sequence of the string: drop
leading and trailing whitespace. -/
def pyStripChars (l : List Char) : List Char :=
  ((l.dropWhile pyIsSpace).reverse.dropWhile pyIsSpace).reverse

/-- The confirmation gate of lines 69-70, 280-281 and 349-350 of `main.py`:
the raw console input is stripped of surrounding whitespace and lowercased
(`input(...).strip().lower()`) and the destructive branch runs exactly when
the result is the one-character string `"y"`.  Lowercasing is modelled
per-character with `Char.toLower`; the accept decision agrees with Python on
every input, because U+0059 is the only code point besides `y` itself whose
Unicode lowercase is `y`, `Char.toLower` maps exactly these two to `y`, and
Python lowercasing never shrinks a longer stripped string to the single
character `y` (per-character lowercasing expands or preserves length). -/
def confirmationAccepted (s : String) : Bool :=
  (pyStripChars s.toList).map Char.toLower == ['y']

/-- Lines 57-82 of `main.py` (`delete_orphaned_files`): compute the orphans,
return unchanged when there are none, ask for confirmation, and on a
confirmed run remove each orphaned file in turn. -/
def delete_orphaned_files (fs : FS) (manifest : List FontRecord)
    (all_files : List String) (confirm : String) : FS :=
  let orphaned := find_orphaned_font_files manifest all_files
  if orphaned.isEmpty then fs
  else if confirmationAccepted confirm then orphaned.foldl removeFile fs
  else fs

theorem foldl_removeFile (l : List String) (fs : FS) (q : String) :
    l.foldl removeFile fs q = if q ∈ l then none else fs q := by
  induction l generalizing fs with
  | nil => simp
  | cons p rest ih =>
    simp only [List.foldl_cons, ih, List.mem_cons]
    by_cases hq : q ∈ rest
    · simp [hq]
    · by_cases hp : q = p <;> simp [removeFile, hp, hq]

/-- A concrete filesystem holding the single font file `b.ttf`. -/
def fsOrphanOnly : FS :=
  fun p => if p = "b.ttf" then some [1] else none

/-- C4 counterexample: on the input string `"Y"` — which is not the literal
character `y` — the deletion operation is not cancelled: the orphaned file
`b.ttf` is deleted. -/
theorem delete_confirm_not_literal_y :
    "Y" ≠ "y" ∧
    fsOrphanOnly "b.ttf" = some [1] ∧
    delete_orphaned_files fsOrphanOnly [] ["b.ttf"] "Y" "b.ttf" = none := by
  refine ⟨by decide, rfl, ?_⟩
  have hc : confirmationAccepted "Y" = true := by decide
  simp [delete_orphaned_files, find_orphaned_font_files, get_manifest_font_files,
    hc, removeFile]

/-- The candidate font file's path, split as `pathlib` does into
`file_path.stem` (everything up to the last extension, parent directory
included) and `file_path.suffix` (the last extension with its dot). -/
def fontFilePath (stem suffix : String) : String := stem ++ suffix

/-- Line 361 of `main.py`: the subsetted output sibling
`{file_path.stem}.subset{file_path.suffix}`. -/
def subsetPath (stem suffix : String) : String := stem ++ ".subset" ++ suffix

/-- Line 385 of `main.py`: the backup sibling
`{file_path.stem}.original{file_path.suffix}`. -/
def originalBackupPath (stem suffix : String) : String := stem ++ ".original" ++ suffix

/-- Lines 379-398 of `main.py` (`reduce_large_font_files`, after the
external tool ran): if the subsetted output exists and is strictly smaller
than the recorded original size, rename the original to the `.original`
backup and the subsetted output onto the original path; otherwise delete the
subsetted output; if the output was never created, leave everything as is. -/
def subsetSwapStep (fs : FS) (stem suffix : String) (originalSize : Nat) : FS :=
  match fs (subsetPath stem suffix) with
  | none => fs
  | some sub =>
    if fileSize sub < originalSize then
      renameFile (renameFile fs (fontFilePath stem suffix) (originalBackupPath stem suffix))
        (subsetPath stem suffix) (fontFilePath stem suffix)
    else
      removeFile fs (subsetPath stem suffix)

theorem fontFilePath_ne_subsetPath (stem suffix : String) :
    fontFilePath stem suffix ≠ subsetPath stem suffix := by
  intro h
  have hlen := congrArg String.length h
  simp [fontFilePath, subsetPath, String.length_append] at hlen
  exact absurd hlen (by decide)

theorem fontFilePath_ne_originalBackupPath (stem suffix : String) :
    fontFilePath stem suffix ≠ originalBackupPath stem suffix := by
  intro h
  have hlen := congrArg String.length h
  simp [fontFilePath, originalBackupPath, String.length_append] at hlen
  exact absurd hlen (by decide)

theorem subsetPath_ne_originalBackupPath (stem suffix : String) :
    subsetPath stem suffix ≠ originalBackupPath stem suffix := by
  intro h
  have hlen := congrArg String.length h
  simp [subsetPath, originalBackupPath, String.length_append] at hlen
  exact absurd hlen (by decide)

/-- C2: for a candidate whose subsetted output exists, if the output is
strictly smaller than the original then afterwards the original path holds
the subsetted bytes and the `.original` backup sibling holds the original
bytes unchanged; if it is not strictly smaller, the output is deleted and
the original path is unchanged. -/
theorem subsetSwapStep_spec (fs : FS) (stem suffix : String)
    (orig sub : List Nat)
    (hfile : fs (fontFilePath stem suffix) = some orig)
    (hsub : fs (subsetPath stem suffix) = some sub) :
    (fileSize sub < fileSize orig →
      subsetSwapStep fs stem suffix (fileSize orig) (fontFilePath stem suffix) = some sub ∧
      subsetSwapStep fs stem suffix (fileSize orig) (originalBackupPath stem suffix) = some orig) ∧
    (¬ fileSize sub < fileSize orig →
      subsetSwapStep fs stem suffix (fileSize orig) (fontFilePath stem suffix) = some orig ∧
      subsetSwapStep fs stem suffix (fileSize orig) (subsetPath stem suffix) = none) := by
  have hfs := fontFilePath_ne_subsetPath stem suffix
  have hfb := fontFilePath_ne_originalBackupPath stem suffix
  have hsb := subsetPath_ne_originalBackupPath stem suffix
  have hsf := Ne.symm hfs
  have hbf := Ne.symm hfb
  have hbs := Ne.symm hsb
  constructor
  · intro hlt
    constructor
    · simp [subsetSwapStep, hsub, hlt, renameFile, hfs, hfb, hsb, hsf, hbf, hbs]
    · simp [subsetSwapStep, hsub, hlt, renameFile, hfs, hfb, hsb, hsf, hbf, hbs, hfile]
  · intro hge
    constructor
    · simp [subsetSwapStep, hsub, hge, removeFile, hfs, hfb, hsb, hsf, hbf, hbs, hfile]
    · simp [subsetSwapStep, hsub, hge, removeFile]

/-- A concrete filesystem for the subsetting swap: the original font file
`Big/a.ttf` holds three bytes and the subsetted output `Big/a.subset.ttf`
holds one byte. -/
def fsSubsetPair : FS :=
  fun p =>
    if p = "Big/a.ttf" then some [7, 8, 9]
    else if p = "Big/a.subset.ttf" then some [7]
    else none

/-- C2 witnessed at a concrete input: with the original `Big/a.ttf` of size 3
and a subsetted output of size 1, the swap puts the subsetted bytes at
`Big/a.ttf` and the original bytes at `Big/a.original.ttf`. -/
theorem subsetSwapStep_spec_witness :
    subsetSwapStep fsSubsetPair "Big/a" ".ttf" 3 (fontFilePath "Big/a" ".ttf") = some [7] ∧
    subsetSwapStep fsSubsetPair "Big/a" ".ttf" 3 (originalBackupPath "Big/a" ".ttf") =
      some [7, 8, 9] :=
  (subsetSwapStep_spec fsSubsetPair "Big/a" ".ttf" [7, 8, 9] [7]
    (by decide) (by decide)).1 (by decide)

/-- Effect on the filesystem of the external `pyftsubset` run succeeding and
writing its `--output-file`. -/
def writeFile (fs : FS) (p : String) (content : List Nat) : FS :=
  fun q => if q = p then some content else fs q

/-- One iteration of the candidate loop of lines 358-403 of `main.py` at the
filesystem level: the external tool either creates the subsetted output
(`some bytes`) or fails to (`none`: non-zero exit, exception or missing
output file, leaving the filesystem unchanged); a created output then goes
through the compare-and-swap of lines 379-398. -/
def processLargeFile (toolOutput : String → String → Option (List Nat))
    (fs : FS) (stem suffix : String) (originalSize : Nat) : FS :=
  match toolOutput stem suffix with
  | none => fs
  | some bytes =>
    subsetSwapStep (writeFile fs (subsetPath stem suffix) bytes) stem suffix
      originalSize

/-- Lines 349-403 of `main.py` (`reduce_large_font_files` from the
confirmation prompt on): an input whose normalisation is not `y` cancels
with nothing touched; a confirmed run processes each over-limit candidate
`((stem, suffix), originalSize)` in turn. -/
def reduce_large_font_files_fs (toolOutput : String → String → Option (List Nat))
    (fs : FS) (largeFiles : List ((String × String) × Nat)) (confirm : String) :
    FS :=
  if confirmationAccepted confirm then
    largeFiles.foldl (fun s c => processLargeFile toolOutput s c.1.1 c.1.2 c.2) fs
  else fs

/-- C4 amended: every destructive run — orphan deletion and
subset-and-replace — is gated on the stripped, lowercased console input
being `"y"`: when the normalised input is not `"y"`, both operations leave
the filesystem untouched; when it is `"y"`, the deletion removes exactly the
orphaned files and the subsetting run performs the same processing as on the
literal input `"y"`. -/
theorem destructive_confirmation_gate (fs : FS) (manifest : List FontRecord)
    (all_files : List String)
    (toolOutput : String → String → Option (List Nat))
    (largeFiles : List ((String × String) × Nat)) (confirm : String) :
    (confirmationAccepted confirm = false →
      (∀ p, delete_orphaned_files fs manifest all_files confirm p = fs p) ∧
      reduce_large_font_files_fs toolOutput fs largeFiles confirm = fs) ∧
    (confirmationAccepted confirm = true →
      (∀ p, delete_orphaned_files fs manifest all_files confirm p =
        if p ∈ find_orphaned_font_files manifest all_files then none else fs p) ∧
      reduce_large_font_files_fs toolOutput fs largeFiles confirm =
        reduce_large_font_files_fs toolOutput fs largeFiles "y") := by
  constructor
  · intro hc
    constructor
    · intro p
      simp [delete_orphaned_files, hc]
    · simp [reduce_large_font_files_fs, hc]
  · intro hc
    constructor
    · intro p
      by_cases hempty : (find_orphaned_font_files manifest all_files).isEmpty
      · have hnil := List.isEmpty_iff.mp hempty
        simp [delete_orphaned_files, hempty, hnil]
      · simp [delete_orphaned_files, hempty, hc, foldl_removeFile]
    · have hy : confirmationAccepted "y" = true := by decide
      simp [reduce_large_font_files_fs, hc, hy]

/-- A subsetting oracle that always produces a one-byte output file. -/
def toolOneByte : String → String → Option (List Nat) := fun _ _ => some [7]

/-- C4 amended, witnessed at a concrete input: `"yes"` does not normalise to
`"y"`, so neither destructive operation touches the filesystem: the orphaned
`b.ttf` stays and the over-limit candidate is not replaced. -/
theorem destructive_confirmation_gate_witness :
    delete_orphaned_files fsOrphanOnly [] ["b.ttf"] "yes" "b.ttf" =
      fsOrphanOnly "b.ttf" ∧
    reduce_large_font_files_fs toolOneByte fsOrphanOnly
      [(("Big/a", ".ttf"), 20)] "yes" = fsOrphanOnly := by
  have h := (destructive_confirmation_gate fsOrphanOnly [] ["b.ttf"] toolOneByte
    [(("Big/a", ".ttf"), 20)] "yes").1 (by decide)
  exact ⟨h.1 "b.ttf", h.2⟩

/-- A subsetting candidate as `reduce_large_font_files` sees it: the record
id and file path, the original on-disk size gathered during the scan, and
the outcome of the external `pyftsubset` run — `some n` when the tool
succeeded and left an output file of `n` bytes, `none` when the tool raised
or the output file was never created. -/
structure Candidate where
  fontId : String
  file : String
  originalSize : Nat
  subsetOutcome : Option Nat
deriving DecidableEq, Repr

/-- A row of the results table: id, file, original size, new size. -/
abbrev ResultRow : Type := String × String × Nat × Nat

/-- A row of the still-over-limit report: id, file, size. -/
abbrev StillLargeRow : Type := String × String × Nat

/-- Loop body of lines 358-403 of `main.py`: a successful, strictly smaller
subset appends to `results` and, when the new size still exceeds the limit,
to `still_large`; a subset that is not smaller, or a failed run, appends to
neither. -/
def candidateStep (limit : Nat) (acc : List ResultRow × List StillLargeRow)
    (c : Candidate) : List ResultRow × List StillLargeRow :=
  match c.subsetOutcome with
  | some n =>
    if n < c.originalSize then
      (acc.1 ++ [(c.fontId, c.file, c.originalSize, n)],
       if limit < n then acc.2 ++ [(c.fontId, c.file, n)] else acc.2)
    else acc
  | none => acc

/-- The `results` and `still_large` lists after the candidate loop of
`reduce_large_font_files`. -/
def processCandidates (limit : Nat) (cands : List Candidate) :
    List ResultRow × List StillLargeRow :=
  cands.foldl (candidateStep limit) ([], [])

/-- The size the candidate's original path has on disk after the loop: the
subsetted size when the swap happened, the untouched original size
otherwise. -/
def postOpSize (c : Candidate) : Nat :=
  match c.subsetOutcome with
  | some n => if n < c.originalSize then n else c.originalSize
  | none => c.originalSize

/-- The still-over-limit row a single candidate contributes, if any. -/
def stillLargeOf (limit : Nat) (c : Candidate) : Option StillLargeRow :=
  match c.subsetOutcome with
  | some n =>
    if n < c.originalSize ∧ limit < n then some (c.fontId, c.file, n) else none
  | none => none

theorem stillLargeOf_eq_some (limit : Nat) (c : Candidate) (x : StillLargeRow) :
    stillLargeOf limit c = some x ↔
      ∃ n, c.subsetOutcome = some n ∧ n < c.originalSize ∧ limit < n ∧
        x = (c.fontId, c.file, n) := by
  match hout : c.subsetOutcome with
  | none => simp [stillLargeOf, hout]
  | some n =>
    by_cases h : n < c.originalSize ∧ limit < n
    · simp only [stillLargeOf, hout, if_pos h, Option.some.injEq]
      constructor
      · rintro rfl
        exact ⟨n, rfl, h.1, h.2, rfl⟩
      · rintro ⟨n', hn', _, _, rfl⟩
        cases hn'
        rfl
    · simp only [stillLargeOf, hout, if_neg h]
      constructor
      · rintro ⟨⟩
      · rintro ⟨n', hn', h1, h2, rfl⟩
        cases hn'
        exact absurd ⟨h1, h2⟩ h

theorem candidateStep_snd (limit : Nat) (acc : List ResultRow × List StillLargeRow)
    (c : Candidate) :
    (candidateStep limit acc c).2 = acc.2 ++ (stillLargeOf limit c).toList := by
  match hout : c.subsetOutcome with
  | none => simp [candidateStep, stillLargeOf, hout]
  | some n =>
    by_cases hlt : n < c.originalSize
    · by_cases hlim : limit < n
      · simp [candidateStep, stillLargeOf, hout, hlt, hlim]
      · simp [candidateStep, stillLargeOf, hout, hlt, hlim]
    · have hno : ¬ (n < c.originalSize ∧ limit < n) := fun h => hlt h.1
      simp [candidateStep, stillLargeOf, hout, hlt, hno]

theorem processCandidates_go_snd (limit : Nat) (cands : List Candidate)
    (acc : List ResultRow × List StillLargeRow) :
    (cands.foldl (candidateStep limit) acc).2 =
      acc.2 ++ cands.filterMap (stillLargeOf limit) := by
  induction cands generalizing acc with
  | nil => simp
  | cons c rest ih =>
    rw [List.foldl_cons, ih, candidateStep_snd, List.filterMap_cons]
    match hout : stillLargeOf limit c with
    | none => simp [hout]
    | some row => simp [hout]

/-- A candidate whose subsetted output came out larger than the original:
the original (20 bytes, over the 10-byte limit) is kept. -/
def keptCandidate : Candidate :=
  { fontId := "f", file := "Big/a.ttf", originalSize := 20, subsetOutcome := some 25 }

/-- C3 counterexample: a candidate whose subsetted output was not smaller is
still over the limit after the operation (its original, 20 bytes against a
limit of 10, was kept), yet the still-over-limit list of the run is empty. -/
theorem still_large_misses_kept_original :
    10 < postOpSize keptCandidate ∧
    (processCandidates 10 [keptCandidate]).2 = [] := by
  constructor
  · decide
  · rfl

/-- C3 amended: the still-over-limit list contains exactly the candidates
whose subsetted output existed and was strictly smaller (so the swap
happened) and whose new size still exceeds the limit; candidates whose
subsetting failed or produced no smaller file are not listed, even though
their kept original is still over the limit. -/
theorem processCandidates_still_large_spec (limit : Nat) (cands : List Candidate) :
    ∀ x, x ∈ (processCandidates limit cands).2 ↔
      ∃ c ∈ cands, ∃ n, c.subsetOutcome = some n ∧
        n < c.originalSize ∧ limit < n ∧ x = (c.fontId, c.file, n) := by
  intro x
  simp [processCandidates, processCandidates_go_snd, List.mem_filterMap, stillLargeOf_eq_some]

/-- Inner loop of lines 431-436 of `main.py` (`update_file_size_info`): sum
the `os.path.getsize` of each declared file that exists; a missing file adds
nothing. -/
def totalSize (fs : FS) (files : List String) : Nat :=
  files.foldl
    (fun acc file =>
      match fs file with
      | some content => acc + fileSize content
      | none => acc) 0

/-- Per-record body of lines 429-448 of `main.py`: a record passing the
`"files" in font and font["files"]` guard gets its `size` field set to the
summed size, any other record is untouched. -/
def updateRecord (fs : FS) (font : FontRecord) : FontRecord :=
  match font.files with
  | [] => font
  | _ :: _ => { font with size := some (totalSize fs font.files) }

/-- The in-memory effect of `update_file_size_info` on the record list. -/
def update_file_size_info (fs : FS) (manifest : List FontRecord) :
    List FontRecord :=
  manifest.map (updateRecord fs)

theorem totalSize_go (fs : FS) (files : List String) (acc : Nat) :
    files.foldl
      (fun acc file =>
        match fs file with
        | some content => acc + fileSize content
        | none => acc) acc =
      acc + (files.map (fun f => ((fs f).getD []).length)).sum := by
  induction files generalizing acc with
  | nil => simp
  | cons f rest ih =>
    match hf : fs f with
    | none => simp [List.foldl_cons, hf, ih]
    | some content =>
      rw [List.foldl_cons]
      simp only [hf]
      rw [ih]
      simp [fileSize, hf, Nat.add_assoc]

theorem totalSize_eq_sum (fs : FS) (files : List String) :
    totalSize fs files = (files.map (fun f => ((fs f).getD []).length)).sum := by
  simpa using totalSize_go fs files 0

theorem updateRecord_of_ne (fs : FS) (font : FontRecord) (h : font.files ≠ []) :
    updateRecord fs font = { font with size := some (totalSize fs font.files) } := by
  unfold updateRecord
  split
  · next heq => exact absurd heq h
  · rfl

theorem updateRecord_of_nil (fs : FS) (font : FontRecord) (h : font.files = []) :
    updateRecord fs font = font := by
  unfold updateRecord
  split
  · rfl
  · next a l heq => rw [h] at heq; exact absurd heq (by simp)

theorem updateRecord_frame (fs : FS) (font : FontRecord) :
    (updateRecord fs font).id = font.id ∧
    (updateRecord fs font).name = font.name ∧
    (updateRecord fs font).files = font.files ∧
    (updateRecord fs font).preview = font.preview := by
  unfold updateRecord
  split
  · exact ⟨rfl, rfl, rfl, rfl⟩
  · exact ⟨rfl, rfl, rfl, rfl⟩

theorem update_file_size_info_length (fs : FS) (manifest : List FontRecord) :
    (update_file_size_info fs manifest).length = manifest.length :=
  List.length_map manifest _

theorem update_file_size_info_get (fs : FS) (manifest : List FontRecord)
    (i : Nat) (h : i < manifest.length) :
    (update_file_size_info fs manifest).get
        ⟨i, (update_file_size_info_length fs manifest).symm ▸ h⟩ =
      updateRecord fs (manifest.get ⟨i, h⟩) := by
  simp [update_file_size_info]

/-- C6: after the size update, every record with a non-empty `files` list
has `size` equal to the sum over its declared files of the on-disk size of
each file that exists, a missing file contributing zero. -/
theorem update_file_size_info_sizes (fs : FS) (manifest : List FontRecord)
    (i : Nat) (h : i < manifest.length)
    (hfiles : (manifest.get ⟨i, h⟩).files ≠ []) :
    ((update_file_size_info fs manifest).get
        ⟨i, (update_file_size_info_length fs manifest).symm ▸ h⟩).size =
      some (((manifest.get ⟨i, h⟩).files.map
        (fun f => ((fs f).getD []).length)).sum) := by
  rw [update_file_size_info_get, updateRecord_of_ne fs _ hfiles, ← totalSize_eq_sum]

/-- A concrete filesystem for the size updater: `f1/a.ttf` holds five bytes,
nothing else exists (in particular `f1/missing.ttf` does not). -/
def fsSizeDemo : FS :=
  fun p => if p = "f1/a.ttf" then some [1, 2, 3, 4, 5] else none

/-- A record declaring one existing five-byte file and one missing file. -/
def recSizeDemo : FontRecord :=
  { id := some "f1", name := none, files := ["f1/a.ttf", "f1/missing.ttf"],
    preview := none, size := none }

/-- C6 witnessed at a concrete input: the record declaring a five-byte file
and a missing file gets size 5. -/
theorem update_file_size_info_sizes_witness :
    ((update_file_size_info fsSizeDemo [recSizeDemo]).get
        ⟨0, by decide⟩).size = some 5 := by
  have h := update_file_size_info_sizes fsSizeDemo [recSizeDemo] 0
    (by decide) (by decide)
  exact h.trans (by decide)

/-- C9: the size update only touches the `size` field: record count and
order are preserved, every other field of every record is unchanged, and a
record failing the non-empty-`files` guard is entirely unchanged, its old
`size` kept. -/
theorem update_file_size_info_frame (fs : FS) (manifest : List FontRecord) :
    (update_file_size_info fs manifest).length = manifest.length ∧
    ∀ i (h : i < manifest.length),
      ((update_file_size_info fs manifest).get
          ⟨i, (update_file_size_info_length fs manifest).symm ▸ h⟩).id =
        (manifest.get ⟨i, h⟩).id ∧
      ((update_file_size_info fs manifest).get
          ⟨i, (update_file_size_info_length fs manifest).symm ▸ h⟩).name =
        (manifest.get ⟨i, h⟩).name ∧
      ((update_file_size_info fs manifest).get
          ⟨i, (update_file_size_info_length fs manifest).symm ▸ h⟩).files =
        (manifest.get ⟨i, h⟩).files ∧
      ((update_file_size_info fs manifest).get
          ⟨i, (update_file_size_info_length fs manifest).symm ▸ h⟩).preview =
        (manifest.get ⟨i, h⟩).preview ∧
      ((manifest.get ⟨i, h⟩).files = [] →
        (update_file_size_info fs manifest).get
            ⟨i, (update_file_size_info_length fs manifest).symm ▸ h⟩ =
          manifest.get ⟨i, h⟩) := by
  refine ⟨update_file_size_info_length fs manifest, ?_⟩
  intro i h
  rw [update_file_size_info_get]
  have hframe := updateRecord_frame fs (manifest.get ⟨i, h⟩)
  exact ⟨hframe.1, hframe.2.1, hframe.2.2.1, hframe.2.2.2,
    fun hnil => updateRecord_of_nil fs _ hnil⟩

/-- A record with an empty `files` list and a pre-existing `size`. -/
def recNoFiles : FontRecord :=
  { id := some "f2", name := some "Two", files := [], preview := some "p.png",
    size := some 7 }

/-- C9 witnessed at a concrete input: the record with no files is returned
entirely unchanged, its old size kept. -/
theorem update_file_size_info_frame_witness :
    (update_file_size_info fsSizeDemo [recNoFiles]).get ⟨0, by decide⟩ =
      recNoFiles := by
  have h := (update_file_size_info_frame fsSizeDemo [recNoFiles]).2 0 (by decide)
  exact h.2.2.2.2 (by decide)

/-- Configuration constants of lines 12-13 of `main.py`: `PREVIEW_SIZE` and
`FONT_SIZE`. -/
def PREVIEW_SIZE : Nat × Nat := (800, 200)

/-- The fixed preview font size. -/
def FONT_SIZE : Nat := 48

/-- The metrics engine the preview renderer queries for a loaded font:
`getbbox` is `none` when the method is unavailable (the `AttributeError`
branch), `textsize` is `none` when the older method fails (the bare
`except` branch), and `getlength` is the per-character advance used by the
final approximation. -/
structure MetricsEngine where
  getbbox : String → Option (Int × Int × Int × Int)
  textsize : String → Option (Int × Int)
  getlength : Char → Int

/-- Lines 99-119 of `main.py` (`create_preview_image`, per-line
measurement): bounding box first (width `bbox[2] - bbox[0]`, height
`bbox[3] - bbox[1]`), then `draw.textsize`, then the sum of the character
advances with height `int(FONT_SIZE * 1.2)` (which is 57 for font size 48,
matching `FONT_SIZE * 12 / 10` on exact integers). -/
def measureLine (eng : MetricsEngine) (line : String) : Int × Int :=
  match eng.getbbox line with
  | some (x0, y0, x1, y1) => (x1 - x0, y1 - y0)
  | none =>
    match eng.textsize line with
    | some (w, h) => (w, h)
    | none => ((line.toList.map eng.getlength).sum, ((FONT_SIZE * 12 / 10 : Nat) : Int))

/-- C8: line measurement returns the result of the first strategy that
succeeds: the bounding box when available; otherwise the secondary
`textsize` method; otherwise the summed character advances with the
`1.2 × FONT_SIZE` height approximation. -/
theorem measureLine_fallback (eng : MetricsEngine) (line : String) :
    (∀ x0 y0 x1 y1, eng.getbbox line = some (x0, y0, x1, y1) →
      measureLine eng line = (x1 - x0, y1 - y0)) ∧
    (∀ w h, eng.getbbox line = none → eng.textsize line = some (w, h) →
      measureLine eng line = (w, h)) ∧
    (eng.getbbox line = none → eng.textsize line = none →
      measureLine eng line =
        ((line.toList.map eng.getlength).sum, ((FONT_SIZE * 12 / 10 : Nat) : Int))) := by
  refine ⟨?_, ?_, ?_⟩
  · intro x0 y0 x1 y1 hb
    simp [measureLine, hb]
  · intro w h hb ht
    simp [measureLine, hb, ht]
  · intro hb ht
    simp [measureLine, hb, ht]

/-- An engine whose bounding-box method is unavailable but whose secondary
method works, as with older Pillow versions. -/
def engTextsizeOnly : MetricsEngine :=
  { getbbox := fun _ => none
    textsize := fun _ => some (10, 20)
    getlength := fun _ => 3 }

/-- C8 witnessed at a concrete input: with `getbbox` unavailable and
`textsize` succeeding, the recorded measurement is the `textsize` result. -/
theorem measureLine_fallback_witness :
    measureLine engTextsizeOnly "ab" = (10, 20) :=
  (measureLine_fallback engTextsizeOnly "ab").2.1 10 20 rfl rfl

/-- Python `os.path.dirname` on the character sequence of a path with `/`
separators, following `posixpath.dirname`: everything up to the last `/`,
with trailing slashes stripped unless the head is all slashes; the empty
string when there is no `/`. -/
def dirnameChars (l : List Char) : List Char :=
  let head := (l.reverse.dropWhile (fun c => !(c == '/'))).reverse
  if head.isEmpty then []
  else if head.all (fun c => c == '/') then head
  else (head.reverse.dropWhile (fun c => c == '/')).reverse

/-- Python `os.path.dirname` on a relative path string. -/
def dirname (p : String) : String :=
  String.mk (dirnameChars p.toList)

/-- Python `os.path.join(a, b)` for the shapes arising here: `b` appended
to `a` with a `/` between them, or `b` alone when `a` is empty. -/
def joinPath (a b : String) : String :=
  if a = "" then b else a ++ "/" ++ b

/-- Lines 199-204 of `main.py` (`process_single_font`): the preview output
path is the record's declared `preview` when present, else
`<directory-of-first-file>/preview.png`. -/
def previewOutputPath (font : FontRecord) : String :=
  match font.preview with
  | some p => p
  | none => joinPath (dirname font.files.headI) "preview.png"

/-- Lines 181-184 of `main.py` (`create_font_previews`, choice 3): a record
is skipped exactly when it declares a `preview` and that path exists. -/
def shouldSkipMissingPreview (fs : FS) (font : FontRecord) : Bool :=
  match font.preview with
  | some p => (fs p).isSome
  | none => false

/-- The records choice 3 passes on to `process_single_font`. -/
def missingPreviewTargets (fs : FS) (manifest : List FontRecord) :
    List FontRecord :=
  manifest.filter (fun font => !(shouldSkipMissingPreview fs font))

/-- C10: in the render-missing-previews mode a record is skipped exactly
when its `preview` field is present and names an existing path; a record
without a `preview` field is always passed on for re-rendering — in
particular even on a filesystem where its default output path
`<directory-of-first-file>/preview.png` already exists. -/
theorem missingPreviewTargets_spec (fs : FS) (manifest : List FontRecord)
    (font : FontRecord) :
    (font ∈ missingPreviewTargets fs manifest ↔
      font ∈ manifest ∧ ¬ ∃ p, font.preview = some p ∧ (fs p).isSome) ∧
    (font.preview = none → (fs (previewOutputPath font)).isSome →
      font ∈ manifest → font ∈ missingPreviewTargets fs manifest) := by
  have hmem : font ∈ missingPreviewTargets fs manifest ↔
      font ∈ manifest ∧ ¬ ∃ p, font.preview = some p ∧ (fs p).isSome := by
    rw [missingPreviewTargets, List.mem_filter]
    match hp : font.preview with
    | some p => simp [shouldSkipMissingPreview, hp]
    | none => simp [shouldSkipMissingPreview, hp]
  refine ⟨hmem, ?_⟩
  intro hp _ hm
  rw [hmem]
  exact ⟨hm, by simp [hp]⟩

/-- A record without a `preview` field whose first file sits in `f1/`. -/
def recNoPreview : FontRecord :=
  { id := some "f1", name := none, files := ["f1/a.ttf"], preview := none,
    size := none }

/-- A filesystem where the default preview path `f1/preview.png` already
exists. -/
def fsDefaultPreviewExists : FS :=
  fun p => if p = "f1/preview.png" then some [0] else none

/-- C10 witnessed at a concrete input: the record with no `preview` field is
passed on for rendering even though `f1/preview.png` exists on disk. -/
theorem missingPreviewTargets_spec_witness :
    recNoPreview ∈ missingPreviewTargets fsDefaultPreviewExists [recNoPreview] :=
  (missingPreviewTargets_spec fsDefaultPreviewExists [recNoPreview]
      recNoPreview).2 rfl (by decide) (by decide)

/-- A draw call issued by the preview renderer: canvas position and the
line of text drawn there. -/
structure DrawCall where
  x : Int
  y : Int
  line : String
deriving DecidableEq, Repr

/-- The inter-line spacing `int(FONT_SIZE * 0.3)` of lines 122 and 134 of
`main.py`, which is 14 for font size 48 (`48 * 0.3` is just under `14.4` in
binary floating point, truncated to 14, matching `48 * 3 / 10` on exact
integers). -/
def lineSpacing : Nat := FONT_SIZE * 3 / 10

/-- Loop of lines 130-134 of `main.py` (`create_preview_image`): walk the
lines with their measured widths and heights, drawing line `i` at
`x = (PREVIEW_SIZE[0] - line_widths[i]) // 2` and the running `current_y`,
which then advances by `line_heights[i] + lineSpacing`. -/
def drawLines : List String → List Int → List Int → Int → List DrawCall
  | line :: ls, w :: ws, h :: hs, y =>
    ⟨((PREVIEW_SIZE.1 : Int) - w).fdiv 2, y, line⟩ ::
      drawLines ls ws hs (y + h + (lineSpacing : Int))
  | _, _, _, _ => []

/-- Lines 121-134 of `main.py`: total block height (line heights plus
spacing between consecutive lines), vertically centered start position, then
the draw loop.  `widths` and `heights` are the per-line measurements of
lines 99-119. -/
def create_preview_draw_calls (lines : List String) (widths heights : List Int) :
    List DrawCall :=
  let total_height : Int := heights.sum + ((lines.length : Int) - 1) * (lineSpacing : Int)
  let start_y : Int := ((PREVIEW_SIZE.2 : Int) - total_height).fdiv 2
  drawLines lines widths heights start_y

theorem drawLines_length (ls : List String) (ws hs : List Int) (y : Int)
    (hw : ws.length = ls.length) (hh : hs.length = ls.length) :
    (drawLines ls ws hs y).length = ls.length := by
  induction ls generalizing ws hs y with
  | nil =>
    match ws, hs with
    | [], [] => rfl
    | [], _ :: _ => simp at hh
    | _ :: _, _ => simp at hw
  | cons l ls ih =>
    match ws, hs with
    | [], _ => simp at hw
    | _ :: _, [] => simp at hh
    | w :: ws, h :: hs =>
      simp only [drawLines, List.length_cons]
      rw [ih ws hs _ (by simpa using hw) (by simpa using hh)]

theorem drawLines_x_line (ls : List String) (ws hs : List Int) (y : Int)
    (hw : ws.length = ls.length) (hh : hs.length = ls.length)
    (i : Nat) (hi : i < ls.length) :
    ((drawLines ls ws hs y).get
        ⟨i, (drawLines_length ls ws hs y hw hh).symm ▸ hi⟩).x =
      ((PREVIEW_SIZE.1 : Int) - ws.get ⟨i, hw ▸ hi⟩).fdiv 2 ∧
    ((drawLines ls ws hs y).get
        ⟨i, (drawLines_length ls ws hs y hw hh).symm ▸ hi⟩).line =
      ls.get ⟨i, hi⟩ := by
  induction ls generalizing ws hs y i with
  | nil => exact absurd hi (by simp)
  | cons l ls ih =>
    match ws, hs with
    | [], _ => simp at hw
    | _ :: _, [] => simp at hh
    | w :: ws, h :: hs =>
      match i with
      | 0 => exact ⟨rfl, rfl⟩
      | i + 1 =>
        have hw' : ws.length = ls.length := by simpa using hw
        have hh' : hs.length = ls.length := by simpa using hh
        have hi' : i < ls.length := by simpa using hi
        exact ih ws hs (y + h + (lineSpacing : Int)) hw' hh' i hi'

theorem drawLines_y_lowerBound (ls : List String) (ws hs : List Int) (y : Int)
    (hpos : ∀ v ∈ hs, 0 ≤ v) :
    ∀ c ∈ drawLines ls ws hs y, y ≤ c.y := by
  induction ls generalizing ws hs y with
  | nil =>
    intro c hc
    match ws, hs with
    | [], [] => simp [drawLines] at hc
    | [], _ :: _ => simp [drawLines] at hc
    | _ :: _, [] => simp [drawLines] at hc
    | _ :: _, _ :: _ => simp [drawLines] at hc
  | cons l ls ih =>
    intro c hc
    match ws, hs with
    | [], [] => simp [drawLines] at hc
    | [], _ :: _ => simp [drawLines] at hc
    | _ :: _, [] => simp [drawLines] at hc
    | w :: ws, h :: hs =>
      simp only [drawLines, List.mem_cons] at hc
      rcases hc with rfl | hc
      · exact le_refl _
      · have hh : (0 : Int) ≤ h := hpos h (by simp)
        have hrest := ih ws hs (y + h + (lineSpacing : Int))
          (fun v hv => hpos v (by simp [hv])) c hc
        have : y ≤ y + h + (lineSpacing : Int) := by
          have hs0 : (0 : Int) ≤ (lineSpacing : Int) := Int.natCast_nonneg _
          omega
        omega

theorem drawLines_y_chain (ls : List String) (ws hs : List Int) (y : Int)
    (hpos : ∀ v ∈ hs, 0 ≤ v) :
    List.Chain' (fun a b => a.y < b.y) (drawLines ls ws hs y) := by
  induction ls generalizing ws hs y with
  | nil =>
    match ws, hs with
    | [], [] => exact List.chain'_nil
    | [], _ :: _ => exact List.chain'_nil
    | _ :: _, [] => exact List.chain'_nil
    | _ :: _, _ :: _ => exact List.chain'_nil
  | cons l ls ih =>
    match ws, hs with
    | [], _ => exact List.chain'_nil
    | _ :: _, [] => exact List.chain'_nil
    | w :: ws, h :: hs =>
      rw [drawLines]
      refine List.chain'_cons'.mpr ⟨?_, ih ws hs _ (fun v hv => hpos v (by simp [hv]))⟩
      intro b hb
      have hbmem := List.mem_of_mem_head? hb
      have hlb := drawLines_y_lowerBound ls ws hs (y + h + (lineSpacing : Int))
        (fun v hv => hpos v (by simp [hv])) b hbmem
      have hh : (0 : Int) ≤ h := hpos h (by simp)
      have hsp : (1 : Int) ≤ (lineSpacing : Int) := by
        rw [lineSpacing, FONT_SIZE]
        omega
      show y < b.y
      omega

/-- C7: with per-line measurements of the right length and nonnegative
heights, the renderer issues exactly one draw call per line; the vertical
positions are strictly increasing down the canvas; and each call's
horizontal position centers that line's own measured width in the canvas
width, `(PREVIEW_SIZE[0] - line_widths[i]) // 2`, independent of the block's
maximum width. -/
theorem create_preview_draw_calls_spec (lines : List String)
    (widths heights : List Int)
    (hw : widths.length = lines.length) (hh : heights.length = lines.length)
    (hpos : ∀ v ∈ heights, 0 ≤ v) :
    (create_preview_draw_calls lines widths heights).length = lines.length ∧
    (∀ i (hi : i < lines.length),
      ((create_preview_draw_calls lines widths heights).get
          ⟨i, (drawLines_length lines widths heights _ hw hh).symm ▸ hi⟩).x =
        ((PREVIEW_SIZE.1 : Int) - widths.get ⟨i, hw ▸ hi⟩).fdiv 2 ∧
      ((create_preview_draw_calls lines widths heights).get
          ⟨i, (drawLines_length lines widths heights _ hw hh).symm ▸ hi⟩).line =
        lines.get ⟨i, hi⟩) ∧
    ((create_preview_draw_calls lines widths heights).map DrawCall.y).Pairwise
      (fun a b => a < b) := by
  refine ⟨drawLines_length lines widths heights _ hw hh, ?_, ?_⟩
  · intro i hi
    exact drawLines_x_line lines widths heights _ hw hh i hi
  · have hchain := drawLines_y_chain lines widths heights
      (((PREVIEW_SIZE.2 : Int) -
        (heights.sum + ((lines.length : Int) - 1) * (lineSpacing : Int))).fdiv 2) hpos
    have hmap : List.Chain' (fun a b => a < b)
        ((create_preview_draw_calls lines widths heights).map DrawCall.y) :=
      List.chain'_map_of_chain' DrawCall.y (fun a b hab => hab) hchain
    exact List.chain'_iff_pairwise.mp hmap

/-- C7 witnessed at a concrete input: three lines with measured widths
100, 50, 80 and heights 40, 40, 40 yield three draw calls at strictly
increasing vertical positions, each line centered by its own width. -/
theorem create_preview_draw_calls_spec_witness :
    (create_preview_draw_calls ["aa", "b", "cc"] [100, 50, 80] [40, 40, 40]).length = 3 ∧
    ((create_preview_draw_calls ["aa", "b", "cc"] [100, 50, 80]
        [40, 40, 40]).map DrawCall.y).Pairwise (fun a b => a < b) := by
  have h := create_preview_draw_calls_spec ["aa", "b", "cc"] [100, 50, 80]
    [40, 40, 40] (by decide) (by decide) (by decide)
  exact ⟨h.1, h.2.2⟩

end Fonts
